import Mathlib

/- Verification development for the ai-test-agent repository.

   The repository has two Python source files, src/test_runner.py and
   src/app.py.  Strings are modelled as lists of characters (type Str
   below); Python dicts obtained from parsed JSON are modelled as
   association lists; the effectful steps (HTTP call, subprocess, file
   system) are modelled by passing their observable results explicitly.
   Each definition carries a comment pointing at the source lines it
   embeds. -/

/-- Strings are modelled as lists of characters. -/
abbrev Str := List Char

/-- Test whether the first list is an initial segment of the second. -/
def begWith : Str → Str → Bool
  | [], _ => true
  | _ :: _, [] => false
  | a :: p, b :: l => a == b && begWith p l

/-- Test whether the first list occurs as a contiguous block of the second;
    this models the Python substring operator on strings. -/
def containsL (pat : Str) : Str → Bool
  | [] => begWith pat []
  | c :: rest => begWith pat (c :: rest) || containsL pat rest

/-- Whitespace characters removed by Python str.strip and used as
    separators by str.split with no arguments (the ASCII part of
    the whitespace notion of Python, which covers the data the
    repository handles). -/
def isPySpace (c : Char) : Bool :=
  c == ' ' || c == '\t' || c == '\n' || c == '\r' || c == '\x0b' || c == '\x0c'

/-- Remove trailing characters satisfying p. -/
def trimEnd (p : Char → Bool) (l : Str) : Str :=
  (l.reverse.dropWhile p).reverse

/-- Python str.strip with no arguments: remove leading and trailing
    whitespace. -/
def stripList (l : Str) : Str :=
  trimEnd isPySpace (l.dropWhile isPySpace)

/-- One global pass of re.sub with the pattern of three backticks followed
    by an optional python tag (src/test_runner.py line 20): the scan is
    left to right, each match is removed, scanning resumes right after a
    match, and at a match position the greedy optional tag is preferred. -/
def sub1 : Str → Str
  | '\x60' :: '\x60' :: '\x60' :: 'p' :: 'y' :: 't' :: 'h' :: 'o' :: 'n' :: rest => sub1 rest
  | '\x60' :: '\x60' :: '\x60' :: rest => sub1 rest
  | c :: rest => c :: sub1 rest
  | [] => []

/-- One global pass of re.sub removing every leftmost run of three
    backticks (src/test_runner.py line 21). -/
def sub2 : Str → Str
  | '\x60' :: '\x60' :: '\x60' :: rest => sub2 rest
  | c :: rest => c :: sub2 rest
  | [] => []

/-- clean_llm_code from src/test_runner.py lines 14-22: the two
    re.sub passes followed by str.strip. -/
def clean_llm_code (text : Str) : Str :=
  stripList (sub2 (sub1 text))

/-- Whether a string contains three consecutive backticks anywhere. -/
def hasFence : Str → Bool
  | '\x60' :: '\x60' :: '\x60' :: _ => true
  | _ :: rest => hasFence rest
  | [] => false

/-- The three backtick characters of a fence marker. -/
def ticks : Str := ['\x60', '\x60', '\x60']

/-- An opening fence marker with the python language tag. -/
def ticksPy : Str := ['\x60', '\x60', '\x60', 'p', 'y', 't', 'h', 'o', 'n']

/-- Line boundary characters recognised by Python str.splitlines. -/
def isLineBreak (c : Char) : Bool :=
  c == '\n' || c == '\r' || c == '\x0b' || c == '\x0c' ||
  c == '\x1c' || c == '\x1d' || c == '\x1e' || c == '\x85' ||
  c == '\u2028' || c == '\u2029'

/-- Worker for Python str.splitlines: acc holds the characters of the
    current line in reverse; a carriage return immediately followed by a
    newline counts as a single boundary, and a trailing boundary does not
    open a final empty line. -/
def splitLinesAux (acc : Str) : Str → List Str
  | [] => if acc = [] then [] else [acc.reverse]
  | [c] =>
    if isLineBreak c then acc.reverse :: splitLinesAux [] []
    else splitLinesAux (c :: acc) []
  | c :: d :: rest =>
    if c = '\r' ∧ d = '\n' then acc.reverse :: splitLinesAux [] rest
    else if isLineBreak c then acc.reverse :: splitLinesAux [] (d :: rest)
    else splitLinesAux (c :: acc) (d :: rest)

/-- Python str.splitlines. -/
def pySplitlines (l : Str) : List Str :=
  splitLinesAux [] l

/-- Join a list of strings with single newline characters, as Python
    str.join with a newline separator does. -/
def joinNL : List Str → Str
  | [] => []
  | [l] => l
  | l :: ls => l ++ '\n' :: joinNL ls

/-- The substrings whose presence makes a line of test-runner output a
    summary line (src/test_runner.py line 123). -/
def keepLine (l : Str) : Bool :=
  containsL "passed".toList l || containsL "failed".toList l ||
  containsL "error".toList l

/-- Summary extraction from the captured standard output
    (src/test_runner.py lines 120-125): keep the lines containing one of
    the three markers and join them with newlines. -/
def summaryFromOutput (test_output : Str) : Str :=
  joinNL ((pySplitlines test_output).filter keepLine)

/-- Parsed JSON values, as produced by response.json() in
    src/test_runner.py line 83. -/
inductive Json where
  | null
  | bool (b : Bool)
  | num (n : Int)
  | str (s : Str)
  | arr (xs : List Json)
  | obj (fields : List (Str × Json))

/-- Key of the choices field. -/
def choicesK : Str := "choices".toList

/-- Key of the message field. -/
def messageK : Str := "message".toList

/-- Key of the content field. -/
def contentK : Str := "content".toList

/-- Key of the text field. -/
def textK : Str := "text".toList

/-- Key of the error field. -/
def errorK : Str := "error".toList

/-- Lookup of a key in a Python dict, modelled on an association list. -/
def lookupJ (key : Str) : List (Str × Json) → Option Json
  | [] => none
  | kv :: rest => if kv.1 = key then some kv.2 else lookupJ key rest

/-- Python indexing with the constant 0, as in response_json["choices"][0]
    (src/test_runner.py line 31): the first element of a list, the first
    character of a string, and a TypeError, KeyError or IndexError (none)
    otherwise. -/
def pyIndex0 : Json → Option Json
  | .arr (x :: _) => some x
  | .str (c :: _) => some (.str [c])
  | _ => none

/-- Equality of a JSON value with a given string, used for Python
    membership tests on lists. -/
def isStrVal (key : Str) : Json → Bool
  | .str s => s == key
  | _ => false

/-- The Python operator testing membership of a string key: key lookup on
    a dict, substring containment on a string, element membership on a
    list, and a TypeError (none) on the remaining value shapes. -/
def pyContains (key : Str) : Json → Option Bool
  | .obj fields => some (lookupJ key fields).isSome
  | .str s => some (containsL key s)
  | .arr xs => some (xs.any (isStrVal key))
  | _ => none

/-- Python indexing with a string key: dict lookup (none is a KeyError),
    and a TypeError (none) on every other value shape. -/
def pyIndexKey (key : Str) : Json → Option Json
  | .obj fields => lookupJ key fields
  | _ => none

/-- Outcomes of extract_llm_output (src/test_runner.py lines 25-41):
    a returned value, the ValueError naming the unexpected choices
    structure (line 37), the RuntimeError carrying the upstream error
    payload (line 39), the ValueError for any other shape (line 41), or
    an uncaught exception from a Python operation on a value of an
    unsupported shape. -/
inductive ExtractResult where
  | ok (v : Json)
  | formatError (response : Json)
  | apiError (payload : Json)
  | invalidError (response : Json)
  | crash

/-- The elif branch of extract_llm_output (src/test_runner.py lines
    34-37): return the text field of the choice if present, else raise
    the ValueError naming the response. -/
def textBranch (choice : Json) (response_json : List (Str × Json)) : ExtractResult :=
  match pyContains textK choice with
  | none => .crash
  | some true =>
    match pyIndexKey textK choice with
    | none => .crash
    | some v => .ok v
  | some false => .formatError (.obj response_json)

/-- extract_llm_output from src/test_runner.py lines 25-41.  The choices
    branch is tried first; inside it the conjunction on line 32 is
    evaluated left to right with Python short-circuiting. -/
def extract_llm_output (response_json : List (Str × Json)) : ExtractResult :=
  match lookupJ choicesK response_json with
  | some choices =>
    match pyIndex0 choices with
    | none => .crash
    | some choice =>
      match pyContains messageK choice with
      | none => .crash
      | some true =>
        match pyIndexKey messageK choice with
        | none => .crash
        | some msg =>
          match pyContains contentK msg with
          | none => .crash
          | some true =>
            match pyIndexKey contentK msg with
            | none => .crash
            | some v => .ok v
          | some false => textBranch choice response_json
      | some false => textBranch choice response_json
  | none =>
    match lookupJ errorK response_json with
    | some e => .apiError e
    | none => .invalidError (.obj response_json)

/-- The observable outcome of the subprocess.run call of
    src/test_runner.py lines 111-116: captured standard output and
    standard error, and the exit code. -/
structure SubprocResult where
  stdout : Str
  stderr : Str
  returncode : Int

/-- The dict returned by run_test_generation
    (src/test_runner.py lines 128-132). -/
structure RunResult where
  generated_tests : Str
  test_output : Str
  summary : Str

/-- Assembly of the run_test_generation return value from the full test
    code and the subprocess outcome (src/test_runner.py lines 118-132):
    test_output is the captured standard output and the summary is
    filtered from it; no other field of the subprocess outcome is read. -/
def assembleRunResult (full_test_code : Str) (r : SubprocResult) : RunResult :=
  { generated_tests := full_test_code
    test_output := r.stdout
    summary := summaryFromOutput r.stdout }

/-- A PDF report written by download_pdf, reduced to its observable
    content: the file path and the four drawn sections in order
    (src/app.py lines 92-95). -/
structure Report where
  path : Str
  sections : List (Str × Str)

/-- The process-wide mutable state of src/app.py: the two module-level
    slots of lines 16-17 (the empty dict modelled as none) and the
    contents of the reports directory. -/
structure AppState where
  last_test_result : Option RunResult
  last_user_code : Str
  reports : List Report

/-- Responses of the download route: a plain-text body with a status
    code, or a file attachment. -/
inductive HttpResp where
  | text (body : Str) (status : Nat)
  | fileAttachment (path : Str)

/-- The report file name built from the timestamp
    (src/app.py line 46). -/
def reportPath (timestamp : Str) : Str :=
  "test_report_".toList ++ timestamp ++ ".pdf".toList

/-- The four titled sections painted into the PDF, in order
    (src/app.py lines 92-95). -/
def pdfSections (user_code : Str) (res : RunResult) : List (Str × Str) :=
  [("User-Submitted Code:".toList, user_code),
   ("Generated Test Cases:".toList, res.generated_tests),
   ("Test Execution Output:".toList, res.test_output),
   ("Summary:".toList, res.summary)]

/-- The download_pdf route (src/app.py lines 38-99): with no stored
    result it answers a plain-text 400 and touches nothing; otherwise it
    writes one report named by the timestamp into the reports directory
    and answers the file as an attachment. -/
def download_pdf (st : AppState) (timestamp : Str) : HttpResp × AppState :=
  match st.last_test_result with
  | none => (.text "No test results found. Run tests first.".toList 400, st)
  | some res =>
    let path := reportPath timestamp
    (.fileAttachment path,
     { st with reports := st.reports ++ [⟨path, pdfSections st.last_user_code res⟩] })

/-- The POST branch of the index route (src/app.py lines 23-34): store
    the submitted code and the freshly computed result in the two
    module-level slots, replacing the previous values.  The result the
    pipeline produced for this submission is passed in explicitly. -/
def indexPost (st : AppState) (code : Str) (result : RunResult) : AppState :=
  { st with last_user_code := code, last_test_result := some result }

/-- Worker for Python str.split with no arguments: acc holds the
    characters of the current word in reverse; runs of whitespace
    separate words and produce no empty words. -/
def splitWSAux (acc : Str) : Str → List Str
  | [] => if acc = [] then [] else [acc.reverse]
  | c :: rest =>
    if isPySpace c then
      if acc = [] then splitWSAux [] rest else acc.reverse :: splitWSAux [] rest
    else splitWSAux (c :: acc) rest

/-- Python str.split with no arguments. -/
def pySplitWS (l : Str) : List Str :=
  splitWSAux [] l

/-- One iteration of the word loop of wrap_text (src/app.py lines
    72-78): extend the current line when the candidate measures under the
    maximum width, otherwise flush the current line and start over from
    the word.  The measure w abstracts canvas.stringWidth with the fixed
    font of line 74, and the comparison is the strict one of line 74. -/
def wrapStep {W : Type} [LinearOrder W] (w : Str → W) (maxW : W)
    (acc : List Str × Str) (word : Str) : List Str × Str :=
  let test_line := if acc.2 = [] then word else acc.2 ++ ' ' :: word
  if w test_line < maxW then (acc.1, test_line) else (acc.1 ++ [acc.2], word)

/-- wrap_text from src/app.py lines 68-81: split the stripped text into
    words, run the greedy loop, and flush a nonempty final line. -/
def wrap_text {W : Type} [LinearOrder W] (w : Str → W) (text : Str) (maxW : W) : List Str :=
  let words := pySplitWS (stripList text)
  let r := words.foldl (wrapStep w maxW) ([], [])
  if r.2 = [] then r.1 else r.1 ++ [r.2]

/-- A response carrying both a choices field with a well-formed message
    and a top-level error field. -/
def respBoth : List (Str × Json) :=
  [("choices".toList, Json.arr
      [Json.obj [("message".toList, Json.obj [("content".toList, Json.str ['h', 'i'])])]]),
   ("error".toList, Json.str ['b'])]

/-- A response whose choices array holds a number as its first element. -/
def respNum5 : List (Str × Json) :=
  [("choices".toList, Json.arr [Json.num 5])]

/-- Claim C1: whenever the parsed response has a choices array whose
    first element is an object carrying a message object with a string
    content field, extract_llm_output returns exactly that string,
    unmodified. -/
theorem extract_returns_content
    {resp cf mf : List (Str × Json)} {rest : List Json} {s : Str}
    (hc : lookupJ choicesK resp = some (Json.arr (Json.obj cf :: rest)))
    (hm : lookupJ messageK cf = some (Json.obj mf))
    (hs : lookupJ contentK mf = some (Json.str s)) :
    extract_llm_output resp = ExtractResult.ok (Json.str s) := by
  have h1 : pyContains messageK (Json.obj cf) = some true := by
    simp [pyContains, hm]
  have h2 : pyIndexKey messageK (Json.obj cf) = some (Json.obj mf) := by
    simp [pyIndexKey, hm]
  have h3 : pyContains contentK (Json.obj mf) = some true := by
    simp [pyContains, hs]
  have h4 : pyIndexKey contentK (Json.obj mf) = some (Json.str s) := by
    simp [pyIndexKey, hs]
  unfold extract_llm_output
  rw [hc]
  simp only [pyIndex0]
  simp only [h1, h2, h3, h4]

/-- Witness for C1 at a concrete response. -/
theorem extract_returns_content_w :
    extract_llm_output [("choices".toList, Json.arr
      [Json.obj [("message".toList, Json.obj [("content".toList, Json.str ['o', 'k'])])]])]
    = ExtractResult.ok (Json.str ['o', 'k']) :=
  extract_returns_content rfl rfl rfl

/-- Claim C3 counterexample: the code tests for a choices field before an
    error field, so a response carrying both returns text instead of
    signalling the upstream error. -/
theorem error_shadowed_by_choices :
    extract_llm_output respBoth = ExtractResult.ok (Json.str ['h', 'i'])
    ∧ extract_llm_output respBoth ≠ ExtractResult.apiError (Json.str ['b']) := by
  refine ⟨rfl, ?_⟩
  have h1 : extract_llm_output respBoth = ExtractResult.ok (Json.str ['h', 'i']) := rfl
  rw [h1]
  simp

/-- Claim C3 (amended): for a response with a top-level error field and
    no choices field, extract_llm_output signals the upstream-API error
    carrying that payload. -/
theorem api_error_without_choices {resp : List (Str × Json)} {e : Json}
    (hc : lookupJ choicesK resp = none)
    (he : lookupJ errorK resp = some e) :
    extract_llm_output resp = ExtractResult.apiError e := by
  unfold extract_llm_output
  simp only [hc, he]

/-- Witness for the amended C3 at a concrete response. -/
theorem api_error_without_choices_w :
    extract_llm_output [("error".toList, Json.str ['b'])]
    = ExtractResult.apiError (Json.str ['b']) :=
  api_error_without_choices rfl rfl

/-- Claim C7 counterexample: when the first element of the choices array
    is a number, the membership test on it raises an uncaught TypeError
    instead of the formatting ValueError the claim requires. -/
theorem nonobject_choice_crashes :
    extract_llm_output respNum5 = ExtractResult.crash
    ∧ extract_llm_output respNum5 ≠ ExtractResult.formatError (Json.obj respNum5) := by
  refine ⟨rfl, ?_⟩
  have h1 : extract_llm_output respNum5 = ExtractResult.crash := rfl
  rw [h1]
  simp

/-- Claim C7 (amended): for a first choices element that is an object
    whose message field is absent or evaluates its content membership
    test to false, a present text field is returned and an absent one
    raises the formatting error naming the response; and a response with
    neither choices nor error raises the generic invalid-response
    error. -/
theorem fallback_branches :
    (∀ (resp cf : List (Str × Json)) (rest : List Json) (v : Json),
      lookupJ choicesK resp = some (Json.arr (Json.obj cf :: rest)) →
      (lookupJ messageK cf = none ∨
        ∃ m, lookupJ messageK cf = some m ∧
          pyContains contentK m = some false) →
      lookupJ textK cf = some v →
      extract_llm_output resp = ExtractResult.ok v)
    ∧ (∀ (resp cf : List (Str × Json)) (rest : List Json),
      lookupJ choicesK resp = some (Json.arr (Json.obj cf :: rest)) →
      (lookupJ messageK cf = none ∨
        ∃ m, lookupJ messageK cf = some m ∧
          pyContains contentK m = some false) →
      lookupJ textK cf = none →
      extract_llm_output resp = ExtractResult.formatError (Json.obj resp))
    ∧ (∀ resp : List (Str × Json),
      lookupJ choicesK resp = none →
      lookupJ errorK resp = none →
      extract_llm_output resp = ExtractResult.invalidError (Json.obj resp)) := by
  refine ⟨?_, ?_, ?_⟩
  · intro resp cf rest v hc hm ht
    have htb : textBranch (Json.obj cf) resp = ExtractResult.ok v := by
      have h4 : pyContains textK (Json.obj cf) = some true := by
        simp [pyContains, ht]
      have h5 : pyIndexKey textK (Json.obj cf) = some v := by
        simp [pyIndexKey, ht]
      rw [textBranch, h4, h5]
    unfold extract_llm_output
    rw [hc]
    simp only [pyIndex0]
    rcases hm with hm | ⟨m, hm, hcont⟩
    · have h1 : pyContains messageK (Json.obj cf) = some false := by
        simp [pyContains, hm]
      simp only [h1, htb]
    · have h1 : pyContains messageK (Json.obj cf) = some true := by
        simp [pyContains, hm]
      have h2 : pyIndexKey messageK (Json.obj cf) = some m := by
        simp [pyIndexKey, hm]
      simp only [h1, h2, hcont, htb]
  · intro resp cf rest hc hm ht
    have htb : textBranch (Json.obj cf) resp
        = ExtractResult.formatError (Json.obj resp) := by
      have h4 : pyContains textK (Json.obj cf) = some false := by
        simp [pyContains, ht]
      rw [textBranch, h4]
    unfold extract_llm_output
    rw [hc]
    simp only [pyIndex0]
    rcases hm with hm | ⟨m, hm, hcont⟩
    · have h1 : pyContains messageK (Json.obj cf) = some false := by
        simp [pyContains, hm]
      simp only [h1, htb]
    · have h1 : pyContains messageK (Json.obj cf) = some true := by
        simp [pyContains, hm]
      have h2 : pyIndexKey messageK (Json.obj cf) = some m := by
        simp [pyIndexKey, hm]
      simp only [h1, h2, hcont, htb]
  · intro resp hc he
    unfold extract_llm_output
    simp only [hc, he]

/-- Witness for the amended C7 at a concrete response with a plain text
    choice. -/
theorem fallback_branches_w :
    extract_llm_output
      [("choices".toList, Json.arr [Json.obj [("text".toList, Json.str ['t'])]])]
    = ExtractResult.ok (Json.str ['t']) :=
  fallback_branches.1 _ _ _ _ rfl (Or.inl rfl) rfl

/-- Claim C5: requesting the PDF with no stored result answers the fixed
    plain-text message with status 400 and leaves the state, in
    particular the reports directory, unchanged. -/
theorem pdf_without_result_400 (st : AppState) (ts : Str)
    (h : st.last_test_result = none) :
    download_pdf st ts
    = (HttpResp.text "No test results found. Run tests first.".toList 400, st) := by
  simp [download_pdf, h]

/-- Witness for C5 at the initial state. -/
theorem pdf_without_result_400_w :
    AppState.last_test_result ⟨none, [], []⟩ = none
    ∧ download_pdf ⟨none, [], []⟩ []
      = (HttpResp.text "No test results found. Run tests first.".toList 400,
         (⟨none, [], []⟩ : AppState)) :=
  ⟨rfl, pdf_without_result_400 _ _ rfl⟩

/-- Claim C6: after two sequential submissions the two slots hold exactly
    the code and result of the second submission, and a PDF downloaded then is
    built from those two values alone. -/
theorem second_submission_replaces_first
    (st : AppState) (c1 c2 : Str) (r1 r2 : RunResult) (ts : Str) :
    (indexPost (indexPost st c1 r1) c2 r2).last_user_code = c2
    ∧ (indexPost (indexPost st c1 r1) c2 r2).last_test_result = some r2
    ∧ download_pdf (indexPost (indexPost st c1 r1) c2 r2) ts
      = (HttpResp.fileAttachment (reportPath ts),
         { indexPost (indexPost st c1 r1) c2 r2 with
           reports := st.reports ++ [⟨reportPath ts, pdfSections c2 r2⟩] }) := by
  refine ⟨rfl, rfl, ?_⟩
  simp [download_pdf, indexPost]

/-- Claim C8: the fields of the run_test_generation result that report
    the outcome are computed from the captured standard output alone, so
    two subprocess outcomes with equal standard output yield equal
    test_output and summary fields whatever their exit codes. -/
theorem outcome_depends_only_on_stdout
    (code : Str) (r1 r2 : SubprocResult) (h : r1.stdout = r2.stdout) :
    (assembleRunResult code r1).test_output = (assembleRunResult code r2).test_output
    ∧ (assembleRunResult code r1).summary = (assembleRunResult code r2).summary := by
  simp [assembleRunResult, h]

/-- Witness for C8 on two outcomes differing in exit code and standard
    error. -/
theorem outcome_depends_only_on_stdout_w :
    SubprocResult.stdout ⟨"1 passed".toList, [], 0⟩
      = SubprocResult.stdout ⟨"1 passed".toList, ['e'], 1⟩
    ∧ (assembleRunResult [] ⟨"1 passed".toList, [], 0⟩).summary
      = (assembleRunResult [] ⟨"1 passed".toList, ['e'], 1⟩).summary :=
  ⟨rfl, (outcome_depends_only_on_stdout [] _ _ rfl).2⟩

/-- A list headed by a character other than a backtick cannot start with
    two backticks. -/
theorem notTT_of_head_ne (d : Char) (X : Str) (hd : d ≠ '\x60') :
    ∀ t, d :: X = '\x60' :: '\x60' :: t → False := by
  intro t h
  injection h with h1 _
  exact hd h1

/-- A list whose second character is not a backtick cannot start with two
    backticks. -/
theorem notTT_of_second_ne (e : Char) (X : Str) (he : e ≠ '\x60') :
    ∀ t, '\x60' :: e :: X = '\x60' :: '\x60' :: t → False := by
  intro t h
  injection h with _ h2
  injection h2 with h3 _
  exact he h3

/-- The empty list cannot start with two backticks. -/
theorem notTT_nil : ∀ t, ([] : Str) = '\x60' :: '\x60' :: t → False := by
  intro t h
  cases h

/-- A one-element list cannot start with two backticks. -/
theorem notTT_single (c : Char) : ∀ t, [c] = '\x60' :: '\x60' :: t → False := by
  intro t h
  injection h with _ h2
  cases h2

/-- The first substitution pass keeps a character other than a backtick. -/
theorem sub1_cons_ne (c : Char) (l : Str) (hc : c ≠ '\x60') :
    sub1 (c :: l) = c :: sub1 l :=
  sub1.eq_3 c l (fun _ h _ => hc h) (fun _ h _ => hc h)

/-- The first substitution pass keeps a backtick not followed by two more
    backticks. -/
theorem sub1_tick_cons (l : Str) (h : ∀ t, l = '\x60' :: '\x60' :: t → False) :
    sub1 ('\x60' :: l) = '\x60' :: sub1 l :=
  sub1.eq_3 '\x60' l (fun _ _ h2 => h _ h2) (fun r _ h2 => h r h2)

/-- The second substitution pass keeps a character other than a backtick. -/
theorem sub2_cons_ne (c : Char) (l : Str) (hc : c ≠ '\x60') :
    sub2 (c :: l) = c :: sub2 l :=
  sub2.eq_2 c l (fun _ h _ => hc h)

/-- The second substitution pass keeps a backtick not followed by two
    more backticks. -/
theorem sub2_tick_cons (l : Str) (h : ∀ t, l = '\x60' :: '\x60' :: t → False) :
    sub2 ('\x60' :: l) = '\x60' :: sub2 l :=
  sub2.eq_2 '\x60' l (fun r _ h2 => h r h2)

/-- Skipping a character other than a backtick does not affect fence
    detection. -/
theorem hasFence_cons_ne (c : Char) (l : Str) (hc : c ≠ '\x60') :
    hasFence (c :: l) = hasFence l :=
  hasFence.eq_2 c l (fun _ h _ => hc h)

/-- Skipping a backtick not followed by two more backticks does not
    affect fence detection. -/
theorem hasFence_tick_cons (l : Str) (h : ∀ t, l = '\x60' :: '\x60' :: t → False) :
    hasFence ('\x60' :: l) = hasFence l :=
  hasFence.eq_2 '\x60' l (fun r _ h2 => h r h2)

/-- Prepending a character preserves the presence of a fence. -/
theorem hasFence_cons (c : Char) (l : Str) (h : hasFence l = true) :
    hasFence (c :: l) = true := by
  by_cases hx : ∃ t, c = '\x60' ∧ l = '\x60' :: '\x60' :: t
  · rcases hx with ⟨t, rfl, rfl⟩
    exact hasFence.eq_1 t
  · have hcond : ∀ t, c = '\x60' → l = '\x60' :: '\x60' :: t → False :=
      fun t h1 h2 => hx ⟨t, h1, h2⟩
    rw [hasFence.eq_2 c l hcond]
    exact h

/-- Dropping the head preserves the absence of a fence. -/
theorem hasFence_tail (c : Char) (l : Str) (h : hasFence (c :: l) = false) :
    hasFence l = false := by
  by_contra hne
  rw [Bool.not_eq_false] at hne
  rw [hasFence_cons c l hne] at h
  cases h

/-- Heads other than two leading backticks survive the second
    substitution pass: a single-backtick bound. -/
theorem sub2_head1 (l : Str) (h : ∀ t, l = '\x60' :: t → False) :
    ∀ t, sub2 l = '\x60' :: t → False := by
  intro t ht
  cases l with
  | nil => simp [sub2] at ht
  | cons c r =>
    have hc : c ≠ '\x60' := fun hc => h r (by rw [hc])
    rw [sub2_cons_ne c r hc] at ht
    injection ht with h1 _
    exact hc h1

/-- Heads other than two leading backticks survive the second
    substitution pass: the two-backtick bound. -/
theorem sub2_head2 (l : Str) (h : ∀ t, l = '\x60' :: '\x60' :: t → False) :
    ∀ t, sub2 l = '\x60' :: '\x60' :: t → False := by
  intro t ht
  cases l with
  | nil => simp [sub2] at ht
  | cons c r =>
    by_cases hc : c = '\x60'
    · subst hc
      have hr : ∀ t1, r = '\x60' :: t1 → False :=
        fun t1 h1 => h t1 (by rw [h1])
      have hr2 : ∀ t1, r = '\x60' :: '\x60' :: t1 → False :=
        fun t1 h1 => hr ('\x60' :: t1) h1
      rw [sub2_tick_cons r hr2] at ht
      injection ht with _ h2
      exact sub2_head1 r hr t h2
    · rw [sub2_cons_ne c r hc] at ht
      injection ht with h1 _
      exact hc h1

/-- The second substitution pass removes every fence: its output never
    contains three consecutive backticks. -/
theorem sub2_noFence : ∀ l : Str, hasFence (sub2 l) = false := by
  intro l
  induction l using sub2.induct with
  | case1 rest ih =>
    rw [sub2.eq_1]
    exact ih
  | case2 c rest hx ih =>
    rw [sub2.eq_2 c rest hx]
    have hcond : ∀ t, c = '\x60' → sub2 rest = '\x60' :: '\x60' :: t → False := by
      intro t hc h2
      exact sub2_head2 rest (fun t1 h1 => hx t1 hc h1) t h2
    rw [hasFence.eq_2 c _ hcond]
    exact ih
  | case3 => rfl

/-- On fence-free input the second substitution pass is the identity. -/
theorem sub2_id_of_noFence : ∀ l : Str, hasFence l = false → sub2 l = l := by
  intro l
  induction l using sub2.induct with
  | case1 rest ih =>
    intro h
    rw [hasFence.eq_1] at h
    cases h
  | case2 c rest hx ih =>
    intro h
    rw [hasFence.eq_2 c rest hx] at h
    rw [sub2.eq_2 c rest hx, ih h]
  | case3 => intro _; rfl

/-- On fence-free input the first substitution pass is the identity. -/
theorem sub1_id_of_noFence : ∀ l : Str, hasFence l = false → sub1 l = l := by
  intro l
  induction l using sub1.induct with
  | case1 rest ih =>
    intro h
    rw [hasFence.eq_1] at h
    cases h
  | case2 rest hx ih =>
    intro h
    rw [hasFence.eq_1] at h
    cases h
  | case3 c rest hx1 hx2 ih =>
    intro h
    rw [hasFence.eq_2 c rest hx2] at h
    rw [sub1.eq_3 c rest hx1 hx2, ih h]
  | case4 => intro _; rfl

/-- A string has a fence exactly when it splits around three consecutive
    backticks. -/
theorem hasFence_split : ∀ l : Str,
    hasFence l = true ↔ ∃ a b, l = a ++ '\x60' :: '\x60' :: '\x60' :: b := by
  intro l
  constructor
  · induction l using hasFence.induct with
    | case1 rest => intro _; exact ⟨[], rest, rfl⟩
    | case2 c rest hx ih =>
      intro h
      rw [hasFence.eq_2 c rest hx] at h
      rcases ih h with ⟨a, b, hab⟩
      exact ⟨c :: a, b, by rw [hab]; rfl⟩
    | case3 => intro h; cases h
  · rintro ⟨a, b, rfl⟩
    induction a with
    | nil => exact hasFence.eq_1 b
    | cons c a ih => exact hasFence_cons c _ ih

/-- Reversal preserves the absence of a fence. -/
theorem hasFence_reverse (l : Str) (h : hasFence l = false) :
    hasFence l.reverse = false := by
  by_contra hne
  rw [Bool.not_eq_false] at hne
  rcases (hasFence_split l.reverse).mp hne with ⟨a, b, hab⟩
  have hl := congrArg List.reverse hab
  simp only [List.reverse_reverse, List.reverse_append, List.reverse_cons,
    List.append_assoc] at hl
  have : hasFence l = true := by
    rw [hasFence_split]
    refine ⟨b.reverse, a.reverse, ?_⟩
    rw [hl]
    simp
  rw [this] at h
  cases h

/-- Dropping a prefix by a predicate preserves the absence of a fence. -/
theorem hasFence_dropWhile (p : Char → Bool) :
    ∀ l : Str, hasFence l = false → hasFence (l.dropWhile p) = false := by
  intro l
  induction l with
  | nil => intro h; exact h
  | cons c r ih =>
    intro h
    rw [List.dropWhile_cons]
    by_cases hp : p c
    · rw [if_pos hp]
      exact ih (hasFence_tail c r h)
    · rw [if_neg hp]
      exact h

/-- Stripping whitespace preserves the absence of a fence. -/
theorem stripList_noFence (l : Str) (h : hasFence l = false) :
    hasFence (stripList l) = false := by
  unfold stripList trimEnd
  exact hasFence_reverse _ (hasFence_dropWhile _ _ (hasFence_reverse _ (hasFence_dropWhile _ _ h)))

/-- Dropping a prefix by a predicate twice is the same as doing it once. -/
theorem dropWhile_stable (p : Char → Bool) :
    ∀ l : Str, (l.dropWhile p).dropWhile p = l.dropWhile p := by
  intro l
  induction l with
  | nil => rfl
  | cons c r ih =>
    rw [List.dropWhile_cons]
    by_cases hp : p c
    · rw [if_pos hp]
      exact ih
    · rw [if_neg hp, List.dropWhile_cons, if_neg hp]

/-- Trimming the tail of a list leaves one of its initial segments. -/
theorem trimEnd_app (p : Char → Bool) (m : Str) :
    ∃ t, m = trimEnd p m ++ t := by
  have h0 : m.reverse.takeWhile p ++ m.reverse.dropWhile p = m.reverse :=
    List.takeWhile_append_dropWhile p m.reverse
  have h1 := congrArg List.reverse h0
  simp only [List.reverse_append, List.reverse_reverse] at h1
  exact ⟨(m.reverse.takeWhile p).reverse, by rw [trimEnd]; exact h1.symm⟩

/-- Trimming the tail keeps the head clean: a list unchanged by a leading
    drop stays unchanged by it after the trailing trim. -/
theorem trimEnd_dropWhile (p : Char → Bool) (m : Str)
    (hm : m.dropWhile p = m) :
    (trimEnd p m).dropWhile p = trimEnd p m := by
  rcases trimEnd_app p m with ⟨t, hmt⟩
  rcases hq : trimEnd p m with _ | ⟨c, q⟩
  · rfl
  · by_cases hp : p c
    · exfalso
      rw [hq] at hmt
      have hstep : m.dropWhile p = (q ++ t).dropWhile p := by
        rw [hmt]
        simp only [List.cons_append, List.dropWhile_cons, if_pos hp]
      have hlen1 : m.length = (q ++ t).length + 1 := by
        rw [hmt]
        simp [List.length_append]
      have hlen2 : ((q ++ t).dropWhile p).length ≤ (q ++ t).length :=
        (List.dropWhile_suffix p).length_le
      have : m.length ≤ (q ++ t).length := by
        rw [← hm, hstep]
        exact hlen2
      omega
    · rw [List.dropWhile_cons, if_neg hp]

/-- Trimming the tail twice is the same as doing it once. -/
theorem trimEnd_stable (p : Char → Bool) (x : Str) :
    trimEnd p (trimEnd p x) = trimEnd p x := by
  unfold trimEnd
  rw [List.reverse_reverse, dropWhile_stable]

/-- Python str.strip is idempotent. -/
theorem stripList_idem (l : Str) : stripList (stripList l) = stripList l := by
  unfold stripList
  rw [trimEnd_dropWhile isPySpace _ (dropWhile_stable isPySpace l), trimEnd_stable]

/-- Claim C10: clean_llm_code is idempotent; its first application leaves
    no triple-backtick run and no outer whitespace, so a second
    application changes nothing. -/
theorem clean_idempotent (t : Str) :
    clean_llm_code (clean_llm_code t) = clean_llm_code t := by
  have h1 : hasFence (sub2 (sub1 t)) = false := sub2_noFence _
  have h2 : hasFence (clean_llm_code t) = false := stripList_noFence _ h1
  calc clean_llm_code (clean_llm_code t)
      = stripList (sub2 (sub1 (clean_llm_code t))) := rfl
    _ = stripList (sub2 (clean_llm_code t)) := by rw [sub1_id_of_noFence _ h2]
    _ = stripList (clean_llm_code t) := by rw [sub2_id_of_noFence _ h2]
    _ = stripList (stripList (sub2 (sub1 t))) := rfl
    _ = stripList (sub2 (sub1 t)) := stripList_idem _
    _ = clean_llm_code t := rfl

/-- Bounded induction for the first substitution pass applied to a
    fence-free body followed by a closing fence: the pass removes exactly
    the closing three backticks. -/
theorem sub1_app_ticks_bounded : ∀ n : Nat, ∀ b : Str, b.length ≤ n →
    hasFence b = false → sub1 (b ++ ticks) = b := by
  intro n
  induction n with
  | zero =>
    intro b hb _
    have : b = [] := List.length_eq_zero.mp (Nat.le_zero.mp hb)
    subst this
    decide
  | succ n ih =>
    intro b hb hf
    rcases b with _ | ⟨c, b1⟩
    · decide
    · by_cases hc : c = '\x60'
      · subst hc
        rcases b1 with _ | ⟨d, b2⟩
        · decide
        · by_cases hd : d = '\x60'
          · subst hd
            rcases b2 with _ | ⟨e, b3⟩
            · decide
            · have he : e ≠ '\x60' := by
                intro he
                subst he
                rw [hasFence.eq_1] at hf
                cases hf
              have hf3 : hasFence b3 = false :=
                hasFence_tail _ _ (hasFence_tail _ _ (hasFence_tail _ _ hf))
              have hlen : b3.length ≤ n := by
                simp only [List.length_cons] at hb
                omega
              have hstep : ('\x60' :: '\x60' :: e :: b3) ++ ticks
                  = '\x60' :: '\x60' :: e :: (b3 ++ ticks) := rfl
              rw [hstep]
              rw [sub1_tick_cons _ (notTT_of_second_ne e _ he)]
              rw [sub1_tick_cons _ (notTT_of_head_ne e _ he)]
              rw [sub1_cons_ne e _ he]
              rw [ih b3 hlen hf3]
          · have hf2 : hasFence b2 = false :=
              hasFence_tail _ _ (hasFence_tail _ _ hf)
            have hlen : b2.length ≤ n := by
              simp only [List.length_cons] at hb
              omega
            have hstep : ('\x60' :: d :: b2) ++ ticks
                = '\x60' :: d :: (b2 ++ ticks) := rfl
            rw [hstep]
            rw [sub1_tick_cons _ (notTT_of_head_ne d _ hd)]
            rw [sub1_cons_ne d _ hd]
            rw [ih b2 hlen hf2]
      · have hf1 : hasFence b1 = false := hasFence_tail _ _ hf
        have hlen : b1.length ≤ n := by
          simp only [List.length_cons] at hb
          omega
        have hstep : (c :: b1) ++ ticks = c :: (b1 ++ ticks) := rfl
        rw [hstep]
        rw [sub1_cons_ne c _ hc]
        rw [ih b1 hlen hf1]

/-- The first substitution pass on a fence-free body followed by a
    closing fence removes exactly the fence. -/
theorem sub1_app_ticks (b : Str) (hf : hasFence b = false) :
    sub1 (b ++ ticks) = b :=
  sub1_app_ticks_bounded b.length b (Nat.le_refl _) hf

/-- Claim C2: clean_llm_code removes every fence marker, tagged or bare,
    and trims outer whitespace; in particular an opening python fence and
    a closing fence around a fence-free body are removed and the body is
    kept verbatim up to the outer whitespace trim. -/
theorem clean_fenced_block :
    (∀ t : Str, hasFence (clean_llm_code t) = false)
    ∧ (∀ body : Str, hasFence body = false →
        clean_llm_code (ticksPy ++ body ++ ticks) = stripList body) := by
  constructor
  · intro t
    exact stripList_noFence _ (sub2_noFence _)
  · intro body hf
    have h1 : sub1 ((ticksPy ++ body) ++ ticks) = sub1 (body ++ ticks) := by
      rw [List.append_assoc]
      exact sub1.eq_1 (body ++ ticks)
    calc clean_llm_code (ticksPy ++ body ++ ticks)
        = stripList (sub2 (sub1 ((ticksPy ++ body) ++ ticks))) := rfl
      _ = stripList (sub2 (sub1 (body ++ ticks))) := by rw [h1]
      _ = stripList (sub2 body) := by rw [sub1_app_ticks body hf]
      _ = stripList body := by rw [sub2_id_of_noFence body hf]

/-- Witness for C2 on a concrete fenced block. -/
theorem clean_fenced_block_w :
    hasFence "x = 1\n".toList = false
    ∧ clean_llm_code (ticksPy ++ "x = 1\n".toList ++ ticks) = stripList "x = 1\n".toList :=
  ⟨by decide, clean_fenced_block.2 _ (by decide)⟩

/-- Every line produced by the splitlines worker is free of line
    boundary characters, provided the accumulator is. -/
theorem splitLinesAux_noBreak :
    ∀ (acc l : Str), (∀ c ∈ acc, isLineBreak c = false) →
      ∀ line ∈ splitLinesAux acc l, ∀ c ∈ line, isLineBreak c = false := by
  intro acc l
  induction acc, l using splitLinesAux.induct with
  | case1 =>
    intro _ line hline
    simp [splitLinesAux] at hline
  | case2 acc hacc =>
    intro h line hline
    simp only [splitLinesAux, if_neg hacc, List.mem_singleton] at hline
    subst hline
    intro c hc
    exact h c (List.mem_reverse.mp hc)
  | case3 acc c hbr ih =>
    intro h line hline
    simp only [splitLinesAux, if_pos hbr, List.mem_cons] at hline
    rcases hline with rfl | hline
    · intro x hx
      exact h x (List.mem_reverse.mp hx)
    · exact ih (by intro x hx; cases hx) line hline
  | case4 acc c hbr ih =>
    intro h line hline
    simp only [splitLinesAux, if_neg hbr] at hline
    refine ih ?_ line hline
    intro x hx
    rcases List.mem_cons.mp hx with rfl | hx
    · simpa using hbr
    · exact h x hx
  | case5 acc c d rest hcd ih =>
    intro h line hline
    simp only [splitLinesAux, if_pos hcd, List.mem_cons] at hline
    rcases hline with rfl | hline
    · intro x hx
      exact h x (List.mem_reverse.mp hx)
    · exact ih (by intro x hx; cases hx) line hline
  | case6 acc c d rest hcd hbr ih =>
    intro h line hline
    simp only [splitLinesAux, if_neg hcd, if_pos hbr, List.mem_cons] at hline
    rcases hline with rfl | hline
    · intro x hx
      exact h x (List.mem_reverse.mp hx)
    · exact ih (by intro x hx; cases hx) line hline
  | case7 acc c d rest hcd hbr ih =>
    intro h line hline
    simp only [splitLinesAux, if_neg hcd, if_neg hbr] at hline
    refine ih ?_ line hline
    intro x hx
    rcases List.mem_cons.mp hx with rfl | hx
    · simpa using hbr
    · exact h x hx

/-- On a nonempty boundary-free line the splitlines worker produces that
    single line appended to the reversed accumulator. -/
theorem splitLinesAux_single :
    ∀ line : Str, (∀ c ∈ line, isLineBreak c = false) → line ≠ [] →
      ∀ acc, splitLinesAux acc line = [acc.reverse ++ line] := by
  intro line
  induction line with
  | nil => intro _ h; exact absurd rfl h
  | cons x line' ih =>
    intro hbf _ acc
    have hbx : isLineBreak x = false := hbf x (List.mem_cons_self x line')
    have hbf' : ∀ c ∈ line', isLineBreak c = false :=
      fun c hc => hbf c (List.mem_cons_of_mem x hc)
    rcases line' with _ | ⟨y, line''⟩
    · simp only [splitLinesAux, if_neg (by simp [hbx] : ¬isLineBreak x = true)]
      simp only [splitLinesAux, if_neg (by simp : ¬(x :: acc = []))]
      simp
    · have hxr : x ≠ '\r' := by
        intro h
        rw [h] at hbx
        exact absurd hbx (by decide)
      have hcond : ¬(x = '\r' ∧ y = '\n') := fun hand => hxr hand.1
      simp only [splitLinesAux, if_neg hcond,
        if_neg (by simp [hbx] : ¬isLineBreak x = true)]
      rw [ih hbf' (by simp) (x :: acc)]
      simp

/-- The splitlines worker cuts exactly at a newline following a
    boundary-free line. -/
theorem splitLinesAux_newline :
    ∀ line : Str, (∀ c ∈ line, isLineBreak c = false) →
      ∀ acc rest, splitLinesAux acc (line ++ '\n' :: rest)
        = (acc.reverse ++ line) :: splitLinesAux [] rest := by
  intro line
  induction line with
  | nil =>
    intro _ acc rest
    rcases rest with _ | ⟨r, r'⟩
    · simp only [List.nil_append, splitLinesAux,
        if_pos (by decide : isLineBreak '\n' = true)]
      simp [splitLinesAux]
    · have hcond : ¬(('\n' : Char) = '\r' ∧ r = '\n') :=
        fun hand => absurd hand.1 (by decide)
      simp only [List.nil_append, splitLinesAux, if_neg hcond,
        if_pos (by decide : isLineBreak '\n' = true)]
      simp
  | cons x line' ih =>
    intro hbf acc rest
    have hbx : isLineBreak x = false := hbf x (List.mem_cons_self x line')
    have hbf' : ∀ c ∈ line', isLineBreak c = false :=
      fun c hc => hbf c (List.mem_cons_of_mem x hc)
    have hxr : x ≠ '\r' := by
      intro h
      rw [h] at hbx
      exact absurd hbx (by decide)
    rcases hline : line' ++ '\n' :: rest with _ | ⟨d, drest⟩
    · exact absurd hline (by simp)
    · have hcond : ¬(x = '\r' ∧ d = '\n') := fun hand => hxr hand.1
      rw [List.cons_append, hline]
      simp only [splitLinesAux, if_neg hcond,
        if_neg (by simp [hbx] : ¬isLineBreak x = true)]
      rw [← hline, ih hbf' (x :: acc) rest]
      simp

/-- Splitting the newline join of nonempty boundary-free lines recovers
    exactly those lines. -/
theorem pySplitlines_joinNL :
    ∀ ls : List Str,
      (∀ l ∈ ls, l ≠ [] ∧ ∀ c ∈ l, isLineBreak c = false) →
      pySplitlines (joinNL ls) = ls := by
  intro ls
  induction ls with
  | nil => intro _; rfl
  | cons l ls' ih =>
    intro h
    rcases h l (List.mem_cons_self l ls') with ⟨hne, hbf⟩
    rcases ls' with _ | ⟨l2, ls''⟩
    · show splitLinesAux [] l = [l]
      rw [splitLinesAux_single l hbf hne []]
      rfl
    · show splitLinesAux [] (l ++ '\n' :: joinNL (l2 :: ls'')) = l :: l2 :: ls''
      rw [splitLinesAux_newline l hbf [] (joinNL (l2 :: ls''))]
      have := ih (fun x hx => h x (List.mem_cons_of_mem l hx))
      rw [show splitLinesAux [] (joinNL (l2 :: ls'')) = pySplitlines (joinNL (l2 :: ls'')) from rfl,
        this]
      rfl

/-- A summary line is nonempty: each marker substring is nonempty. -/
theorem keepLine_ne_nil (l : Str) (h : keepLine l = true) : l ≠ [] := by
  intro hl
  subst hl
  exact absurd h (by decide)

/-- Claim C4: the summary consists of exactly the lines of the captured
    output that contain one of the three markers, in their original
    order, joined with newlines; splitting the summary back into lines
    recovers exactly the filtered lines. -/
theorem summary_filters_lines (out : Str) :
    summaryFromOutput out = joinNL ((pySplitlines out).filter keepLine)
    ∧ pySplitlines (summaryFromOutput out) = (pySplitlines out).filter keepLine := by
  refine ⟨rfl, ?_⟩
  unfold summaryFromOutput
  apply pySplitlines_joinNL
  intro l hl
  rcases List.mem_filter.mp hl with ⟨hmem, hkeep⟩
  refine ⟨keepLine_ne_nil l hkeep, ?_⟩
  exact splitLinesAux_noBreak [] out (by intro c hc; cases hc) l hmem

/-- Every word produced by the whitespace splitter is free of whitespace
    characters, provided the accumulator is. -/
theorem splitWSAux_noSpace :
    ∀ (acc l : Str), (∀ c ∈ acc, isPySpace c = false) →
      ∀ word ∈ splitWSAux acc l, ∀ c ∈ word, isPySpace c = false := by
  intro acc l
  induction acc, l using splitWSAux.induct with
  | case1 =>
    intro _ word hword
    simp [splitWSAux] at hword
  | case2 acc hacc =>
    intro h word hword
    simp only [splitWSAux, if_neg hacc, List.mem_singleton] at hword
    subst hword
    intro c hc
    exact h c (List.mem_reverse.mp hc)
  | case3 c rest hsp ih =>
    intro _ word hword
    simp only [splitWSAux, if_pos hsp, if_pos rfl] at hword
    exact ih (by intro x hx; cases hx) word hword
  | case4 acc c rest hsp hacc ih =>
    intro h word hword
    simp only [splitWSAux, if_pos hsp, if_neg hacc, List.mem_cons] at hword
    rcases hword with rfl | hword
    · intro x hx
      exact h x (List.mem_reverse.mp hx)
    · exact ih (by intro x hx; cases hx) word hword
  | case5 acc c rest hsp ih =>
    intro h word hword
    simp only [splitWSAux, if_neg hsp] at hword
    refine ih ?_ word hword
    intro x hx
    rcases List.mem_cons.mp hx with rfl | hx
    · simpa using hsp
    · exact h x hx

/-- Invariant of the greedy wrapping loop: every flushed line measures
    under the maximum width or contains no space, and so does the line
    under construction. -/
theorem wrap_fold_inv {W : Type} [LinearOrder W] (w : Str → W) (maxW : W) :
    ∀ (ws : List Str) (acc : List Str × Str),
      (∀ word ∈ ws, ' ' ∉ word) →
      (∀ l ∈ acc.1, w l < maxW ∨ ' ' ∉ l) →
      (w acc.2 < maxW ∨ ' ' ∉ acc.2) →
      (∀ l ∈ (ws.foldl (wrapStep w maxW) acc).1, w l < maxW ∨ ' ' ∉ l)
        ∧ (w (ws.foldl (wrapStep w maxW) acc).2 < maxW
            ∨ ' ' ∉ (ws.foldl (wrapStep w maxW) acc).2) := by
  intro ws
  induction ws with
  | nil =>
    intro acc _ h1 h2
    exact ⟨h1, h2⟩
  | cons word ws' ih =>
    intro acc hws h1 h2
    have hw : ' ' ∉ word := hws word (List.mem_cons_self word ws')
    have hws' : ∀ x ∈ ws', ' ' ∉ x := fun x hx => hws x (List.mem_cons_of_mem word hx)
    rw [List.foldl_cons]
    simp only [wrapStep]
    by_cases hlt : w (if acc.2 = [] then word else acc.2 ++ ' ' :: word) < maxW
    · rw [if_pos hlt]
      exact ih (acc.1, if acc.2 = [] then word else acc.2 ++ ' ' :: word) hws' h1
        (Or.inl hlt)
    · rw [if_neg hlt]
      refine ih (acc.1 ++ [acc.2], word) hws' ?_ (Or.inr hw)
      intro l hl
      rcases List.mem_append.mp hl with hl | hl
      · exact h1 l hl
      · rw [List.mem_singleton.mp hl]
        exact h2

/-- Claim C9: every line returned by wrap_text measures strictly under
    the maximum width or consists of a single word; equivalently, a
    returned line whose measured width reaches the maximum contains no
    space. -/
theorem wrapped_line_fits_or_single_word {W : Type} [LinearOrder W] [Zero W]
    (w : Str → W) (text : Str) (maxW : W) (_hpos : 0 < maxW) :
    ∀ line ∈ wrap_text w text maxW, w line < maxW ∨ ' ' ∉ line := by
  intro line hline
  unfold wrap_text at hline
  have hwords : ∀ word ∈ pySplitWS (stripList text), ' ' ∉ word := by
    intro word hword hsp
    have := splitWSAux_noSpace [] (stripList text) (by intro x hx; cases hx)
      word hword ' ' hsp
    exact absurd this (by decide)
  have hinv := wrap_fold_inv w maxW (pySplitWS (stripList text)) ([], [])
    hwords (by intro l hl; cases hl) (Or.inr (by intro h; cases h))
  by_cases h2 : ((pySplitWS (stripList text)).foldl (wrapStep w maxW) ([], [])).2 = []
  · rw [if_pos h2] at hline
    exact hinv.1 line hline
  · rw [if_neg h2] at hline
    rcases List.mem_append.mp hline with hl | hl
    · exact hinv.1 line hl
    · rw [List.mem_singleton.mp hl]
      exact hinv.2

/-- Witness for C9 with an integer character-count measure. -/
theorem wrapped_line_fits_or_single_word_w :
    (0 : Int) < 6
    ∧ "aa bb".toList ∈ wrap_text (fun s => (s.length : Int)) "aa bb cc".toList 6
    ∧ (((fun s : Str => (s.length : Int)) "aa bb".toList) < 6 ∨ ' ' ∉ "aa bb".toList) :=
  ⟨by decide, by decide,
    wrapped_line_fits_or_single_word (fun s => (s.length : Int)) "aa bb cc".toList 6
      (by decide) "aa bb".toList (by decide)⟩
